import Mathlib

/-!
Shallow embedding of the SSA / CFG core declared in `src/libasm/SSA.hpp`
(namespace `asmlsp`).  Values, instructions and basic blocks are identified
by natural-number ids (pointer identity in the C++ source).  The header under
`src/` only declares most operation bodies; where a body is absent the
definition below is modelled from the specification text and says so in its
doc comment.
-/

namespace AsmLsp

/-- Pointwise update of a map with Nat keys. -/
def upd {α : Type} (f : Nat → α) (k : Nat) (v : α) : Nat → α :=
  fun x => if x = k then v else f x

/-- Replace `old` by `new`, leave everything else unchanged. -/
def subst (old new x : Nat) : Nat := if x = old then new else x

/-- Erase the first occurrence of `a`, `n` times (one erase per torn-down
use edge). -/
def eraseTimes : List Nat → Nat → Nat → List Nat
  | l, _, 0 => l
  | l, a, n + 1 => eraseTimes (l.erase a) a n

/-! ## Use-def state: `Value` use lists and `Instr` operand lists

`operands i` is instruction `i`'s ordered operand slots (`Instr::operands_`),
`uses v` is value `v`'s ordered use multiset (`Value::uses_`), `owner i` is
`Instr::basicBlock_` (none when detached), `kind i` is the concrete
instruction kind tag. -/

structure UD where
  operands : Nat → List Nat
  uses : Nat → List Nat
  owner : Nat → Option Nat
  kind : Nat → Nat

/-- Modelled from the spec: `Value::addUse` (declared at SSA.hpp:34, body not
in src) — appends `i` once to `v`'s use list; intentional duplication, one
entry per referencing operand slot. -/
def addUse (s : UD) (v i : Nat) : UD :=
  { s with uses := upd s.uses v (s.uses v ++ [i]) }

/-- Modelled from the spec: `Value::removeUse` (declared at SSA.hpp:35, body
not in src) — removes exactly one matching entry; no-op if absent. -/
def removeUse (s : UD) (v i : Nat) : UD :=
  { s with uses := upd s.uses v ((s.uses v).erase i) }

/-- Modelled from the spec: `Instr::addOperand` (declared at SSA.hpp:93, body
not in src) — appends `v` as a new slot of `i` and registers a use edge on
`v`. -/
def addOperand (s : UD) (i v : Nat) : UD :=
  addUse { s with operands := upd s.operands i (s.operands i ++ [v]) } v i

/-- Modelled from the spec: `Instr::setOperand` (declared at SSA.hpp:102,
body not in src) — requires `k` within the current operand count; removes the
use edge from the prior value at slot `k`, stores `v`, registers a use edge
on `v`.  A precondition violation is a rejected operation and leaves the
graph unchanged (spec section 7). -/
def setOperand (s : UD) (i k v : Nat) : UD :=
  if h : k < (s.operands i).length then
    let old := (s.operands i).get ⟨k, h⟩
    let s2 := addUse (removeUse s old i) v i
    { s2 with operands := upd s2.operands i ((s2.operands i).set k v) }
  else s

/-- Modelled from the spec: `Instr::replaceOperand` (declared at SSA.hpp:112,
body not in src) — rewrites every slot of `i` equal to `old` to `new`,
removing one use edge on `old` and adding one on `new` per changed slot. -/
def replaceOperand (s : UD) (i old new : Nat) : UD :=
  let c := (s.operands i).count old
  let uses1 := upd s.uses old (eraseTimes (s.uses old) i c)
  let uses2 := upd uses1 new (uses1 new ++ List.replicate c i)
  { s with operands := upd s.operands i ((s.operands i).map (subst old new)),
           uses := uses2 }

/-- Remove one use entry of `i` from each value in the given operand list,
in order (helper for `clearOperands`). -/
def removeUseFold (i : Nat) : (Nat → List Nat) → List Nat → (Nat → List Nat)
  | uses, [] => uses
  | uses, v :: rest => removeUseFold i (upd uses v ((uses v).erase i)) rest

/-- Modelled from the spec: `Instr::clearOperands` (declared at SSA.hpp:119,
body not in src) — removes every operand edge, each removal tearing down one
use entry. -/
def clearOperands (s : UD) (i : Nat) : UD :=
  { s with operands := upd s.operands i [],
           uses := removeUseFold i s.uses (s.operands i) }

/-- Modelled from the spec: `Value::replaceAllUsesWith` (declared at
SSA.hpp:39, body not in src) — snapshots the current user list, then for each
user rewrites every operand slot equal to `v` to reference `w` instead. -/
def replaceAllUsesWith (s : UD) (v w : Nat) : UD :=
  (s.uses v).foldl (fun st i => replaceOperand st i v w) s

/-- Add one use entry of `u` to each value of the given operand list, in
order (helper for `clone`). -/
def addUsesFold (u : Nat) : (Nat → List Nat) → List Nat → (Nat → List Nat)
  | uses, [] => uses
  | uses, v :: rest => addUsesFold u (upd uses v (uses v ++ [u])) rest

/-- Modelled from the spec: `Instr::clone` (declared at SSA.hpp:133, bodies
of the overriding kinds not in src) — produces a new detached instruction
`newId` of the same concrete kind referencing the same operand values, adding
one use edge per copied operand; the owning-block relation is not copied. -/
def clone (s : UD) (i newId : Nat) : UD :=
  { operands := upd s.operands newId (s.operands i),
    uses := addUsesFold newId s.uses (s.operands i),
    owner := upd s.owner newId none,
    kind := upd s.kind newId (s.kind i) }

/-- The operand-editing operations named by invariant U1. -/
inductive EditOp where
  | addOperand (i v : Nat)
  | setOperand (i k v : Nat)
  | replaceOperand (i old new : Nat)
  | clearOperands (i : Nat)
  | replaceAllUsesWith (v w : Nat)

def applyEdit (s : UD) : EditOp → UD
  | .addOperand i v => addOperand s i v
  | .setOperand i k v => setOperand s i k v
  | .replaceOperand i old new => replaceOperand s i old new
  | .clearOperands i => clearOperands s i
  | .replaceAllUsesWith v w => replaceAllUsesWith s v w

def applyEdits (s : UD) : List EditOp → UD
  | [] => s
  | op :: rest => applyEdits (applyEdit s op) rest

/-- Invariant U1: for every value `v` and instruction `i`, the number of
`i`'s operand slots equal to `v` equals the number of entries equal to `i` in
`v`'s use list. -/
def U1 (s : UD) : Prop := ∀ v i, (s.operands i).count v = (s.uses v).count i

/-! ## CFG state: basic blocks, edges, linear layout -/

/-- An instruction as a basic block sees it: whether it is a terminator,
whether it is a call to a callee known never to return, and an identity
tag. -/
structure SInstr where
  isTerminator : Bool
  neverReturns : Bool
  tag : Nat
  deriving DecidableEq

/-- CFG state: per block its instruction sequence (`BasicBlock::code_`),
predecessor and successor edge lists, plus the enclosing scope's linear block
layout order. -/
structure Cfg where
  code : Nat → List SInstr
  preds : Nat → List Nat
  succs : Nat → List Nat
  layout : List Nat

/-- Modelled from the spec: `BasicBlock::isComplete` (declared at
SSA.hpp:221, body not in src) — true iff the block is non-empty and its last
instruction is a terminator or a call to a callee known never to return
(invariant B3). -/
def isComplete (c : Cfg) (b : Nat) : Bool :=
  match (c.code b).getLast? with
  | none => false
  | some i => i.isTerminator || i.neverReturns

/-- Modelled from the spec: `BasicBlock::linkSuccessor` (declared at
SSA.hpp:322, body not in src) — inserts `b` into `a`'s successor set and,
symmetrically, `a` into `b`'s predecessor set. -/
def linkSuccessor (c : Cfg) (a b : Nat) : Cfg :=
  { c with succs := upd c.succs a (c.succs a ++ [b]),
           preds := upd c.preds b (c.preds b ++ [a]) }

/-- Modelled from the spec: `BasicBlock::unlinkSuccessor` (declared at
SSA.hpp:330, body not in src) — removes `b` from `a`'s successor set and,
symmetrically, `a` from `b`'s predecessor set. -/
def unlinkSuccessor (c : Cfg) (a b : Nat) : Cfg :=
  { c with succs := upd c.succs a ((c.succs a).erase b),
           preds := upd c.preds b ((c.preds b).erase a) }

/-- Rewrite, for each block in the given successor list, its predecessor
entries from `b` to `a` (helper for `merge_back`). -/
def rewritePreds (b a : Nat) : (Nat → List Nat) → List Nat → (Nat → List Nat)
  | preds, [] => preds
  | preds, s :: rest => rewritePreds b a (upd preds s ((preds s).map (subst b a))) rest

/-- Modelled from the spec: `BasicBlock::merge_back` (declared at
SSA.hpp:276, body not in src) — precondition: this block `a` is not already
complete (a violation is a rejected operation leaving the graph unchanged,
spec section 7).  Appends every instruction of `b` to `a`'s end (`b` becomes
empty); every successor of `b` becomes a successor of `a`, rewriting that
successor's predecessor entry from `b` to `a`; `b`'s predecessor and
successor sets become empty. -/
def merge_back (c : Cfg) (a b : Nat) : Cfg :=
  if isComplete c a then c
  else
    { code := upd (upd c.code a (c.code a ++ c.code b)) b [],
      preds := upd (rewritePreds b a c.preds (c.succs b)) b [],
      succs := upd (upd c.succs a (c.succs a ++ c.succs b)) b [],
      layout := c.layout }

/-- The CFG-edge operations named by invariant B1. -/
inductive CfgOp where
  | link (a b : Nat)
  | unlink (a b : Nat)
  | merge (a b : Nat)

def applyCfgOp (c : Cfg) : CfgOp → Cfg
  | .link a b => linkSuccessor c a b
  | .unlink a b => unlinkSuccessor c a b
  | .merge a b => merge_back c a b

def applyCfgOps (c : Cfg) : List CfgOp → Cfg
  | [] => c
  | op :: rest => applyCfgOps (applyCfgOp c op) rest

/-- Side condition for a merge step: the two blocks are distinct and the
merged-away block has no incoming CFG edges. -/
def mergeOk (c : Cfg) : CfgOp → Bool
  | .merge a b => decide (a ≠ b) && (c.preds b).isEmpty
  | _ => true

/-- Every merge step of the sequence satisfies `mergeOk` at its point of
application. -/
def validOk (c : Cfg) : List CfgOp → Bool
  | [] => true
  | op :: rest => mergeOk c op && validOk (applyCfgOp c op) rest

/-- Count-level edge symmetry: the multiplicity of `y` among `x`'s
successors equals the multiplicity of `x` among `y`'s predecessors. -/
def countSym (c : Cfg) : Prop := ∀ x y, (c.succs x).count y = (c.preds y).count x

/-- Invariant B1: `y` is in `x`'s successor set iff `x` is in `y`'s
predecessor set. -/
def B1 (c : Cfg) : Prop := ∀ x y, y ∈ c.succs x ↔ x ∈ c.preds y

/-- Scan of the linear layout underlying `isAfter`: walking the layout from
the front, finding `a` first means false, finding `b` first means true
exactly when `a` still occurs later. -/
def isAfterGo (a b : Nat) : List Nat → Bool
  | [] => false
  | x :: xs => if x = a then false else if x = b then decide (a ∈ xs) else isAfterGo a b xs

/-- Modelled from the spec: `BasicBlock::isAfter` (declared at SSA.hpp:308,
body not in src) — true iff, in the current linear layout order, `b`
precedes `a`; a layout fact only. -/
def isAfter (c : Cfg) (a b : Nat) : Bool := isAfterGo a b c.layout

/-- The modulus of `size_t` arithmetic (64-bit). -/
def sizeTW : Nat := 2 ^ 64

/-- Wrapping `size_t` subtraction `a - b`. -/
def sizeTSub (a b : Nat) : Nat := (a % sizeTW + (sizeTW - b % sizeTW)) % sizeTW

/-- Shallow embedding of `BasicBlock::back(size_t sub)` (inline body at
SSA.hpp:236-242) with `size_t` arithmetic as Nat mod 2^64: the guard
computes `sub + 1` in `size_t` (wrapping to 0 at `sub = SIZE_MAX`) and the
branch accesses `code_[code_.size() - (1 + sub)]` with the index computed in
`size_t`; the unchecked vector access is rendered by `get?` — `none` marks
an index outside the vector's domain, which in the source is an
out-of-bounds access, not a defined result. -/
def bbBack (code : List SInstr) (sub : Nat) : Option SInstr :=
  if (sub + 1) % sizeTW ≤ code.length % sizeTW then
    code.get? (sizeTSub code.length (1 + sub))
  else none

/-- Shallow embedding of `Instr::operand(size_t index)` (inline body at
SSA.hpp:88): the source returns `operands_[index]` with no bounds check and
no failure report, so an out-of-domain index yields no defined result,
rendered `none` here. -/
def operandAccess (operands : List Nat) (index : Nat) : Option Nat :=
  operands.get? index

/-! ## Dominator computation -/

/-- A CFG as the dominator computation sees it: the block set, the entry
block, and the edge maps. -/
structure DomGraph where
  blocks : List Nat
  entry : Nat
  preds : Nat → List Nat
  succs : Nat → List Nat

/-- Look up a block's current dominator set (empty if absent). -/
def lookupDom (dom : List (Nat × List Nat)) (b : Nat) : List Nat :=
  match dom.lookup b with
  | some l => l
  | none => []

/-- List intersection keeping the order of the first argument. -/
def interList (l1 l2 : List Nat) : List Nat :=
  l1.filter (fun x => decide (x ∈ l2))

/-- Intersection of the dominator sets of all listed predecessors. -/
def interAll (dom : Nat → List Nat) : List Nat → List Nat
  | [] => []
  | [p] => dom p
  | p :: q :: rest => interList (dom p) (interAll dom (q :: rest))

/-- Insert the block itself into its candidate dominator set. -/
def insertSelf (b : Nat) (l : List Nat) : List Nat :=
  if b ∈ l then l else b :: l

/-- Modelled from the spec: the seed of the iterative dominator fixpoint —
the entry block's set is the singleton entry, every other block's set is the
full block set. -/
def domInit (g : DomGraph) : List (Nat × List Nat) :=
  g.blocks.map (fun b => (b, if b = g.entry then [g.entry] else g.blocks))

/-- Modelled from the spec: one round of the monotone update — each
non-entry block's set becomes itself plus the intersection of all its
predecessors' current sets. -/
def domStep (g : DomGraph) (dom : List (Nat × List Nat)) : List (Nat × List Nat) :=
  g.blocks.map (fun b =>
    (b, if b = g.entry then lookupDom dom b
        else insertSelf b (interAll (lookupDom dom) (g.preds b))))

def domIter (g : DomGraph) : Nat → List (Nat × List Nat)
  | 0 => domInit g
  | n + 1 => domStep g (domIter g n)

/-- Modelled from the spec: `BasicBlock::dominators` (declared at
SSA.hpp:340, body not in src) — the iterative monotone fixpoint, run for
enough rounds to stabilize over the finite lattice. -/
def dominators (g : DomGraph) (b : Nat) : List Nat :=
  lookupDom (domIter g (g.blocks.length * g.blocks.length + 1)) b

/-- `d` dominates `b` iff `d` is in `b`'s computed dominator set. -/
def dominatedBy (g : DomGraph) (d b : Nat) : Bool := (dominators g b).contains d

/-- Modelled from the spec: `BasicBlock::immediateDominators` (declared at
SSA.hpp:343, body not in src) — from the dominator set, discard every
dominator that is itself dominated by another dominator in the set. -/
def immediateDominators (g : DomGraph) (b : Nat) : List Nat :=
  (dominators g b).filter
    (fun d => !((dominators g b).any (fun e => e != d && dominatedBy g e d)))

/-- The diamond CFG of the specification scenario: Entry (0) branches to
Left (1) and Right (2), both joining at Join (3). -/
def diamond : DomGraph :=
  { blocks := [0, 1, 2, 3],
    entry := 0,
    preds := fun b => if b = 1 then [0] else if b = 2 then [0] else if b = 3 then [1, 2] else [],
    succs := fun b => if b = 0 then [1, 2] else if b = 1 then [3] else if b = 2 then [3] else [] }

/-- A control-flow path: a nonempty block sequence from a source to a target
following successor edges. -/
inductive DPath (g : DomGraph) : Nat → Nat → List Nat → Prop where
  | single (b : Nat) : DPath g b b [b]
  | step (a b c : Nat) (l : List Nat) : b ∈ g.succs a → DPath g b c l → DPath g a c (a :: l)

/-! ## Concrete states used by witnesses and counterexamples -/

def emptyListF : Nat → List Nat := fun _ => []

/-- A fresh use-def state: no operands, no uses, everything detached. -/
def ud0 : UD := { operands := emptyListF, uses := emptyListF, owner := fun _ => none, kind := fun _ => 0 }

/-- A state where instruction 1 uses value 0 in one slot (consistently). -/
def udSelf : UD := { ud0 with operands := upd ud0.operands 1 [0], uses := upd ud0.uses 0 [1] }

/-- A state where instruction 1 has operand slots [10, 11]. -/
def udClone : UD :=
  { ud0 with
    operands := upd ud0.operands 1 [10, 11],
    uses := upd (upd ud0.uses 10 [1]) 11 [1] }

/-- A state where instruction 1 uses value 7 in both of its operand slots
(duplicate operands, explicitly allowed by the use-list data model). -/
def udDup : UD :=
  { ud0 with
    operands := upd ud0.operands 1 [7, 7],
    uses := upd ud0.uses 7 [1, 1] }

/-- An empty CFG. -/
def cfg0 : Cfg := { code := fun _ => [], preds := emptyListF, succs := emptyListF, layout := [] }

def ia1 : SInstr := { isTerminator := false, neverReturns := false, tag := 1 }
def ia2 : SInstr := { isTerminator := false, neverReturns := false, tag := 2 }
def ib1 : SInstr := { isTerminator := false, neverReturns := false, tag := 3 }
def ib2 : SInstr := { isTerminator := false, neverReturns := false, tag := 4 }
def iterm : SInstr := { isTerminator := true, neverReturns := false, tag := 5 }

/-- The merge scenario: block A (0) holds [a1, a2] and is not complete;
block B (1) holds [b1, b2] and has successor set containing only C (2). -/
def mergeScenario : Cfg :=
  { code := fun b => if b = 0 then [ia1, ia2] else if b = 1 then [ib1, ib2] else [],
    preds := fun b => if b = 2 then [1] else [],
    succs := fun b => if b = 1 then [2] else [],
    layout := [0, 1, 2] }

/-- A block 0 ending in a terminator. -/
def cfgTerm : Cfg := { cfg0 with code := upd cfg0.code 0 [ia1, iterm] }

/-- Same layout as the merge scenario but with all CFG edges removed. -/
def cfgLayoutVariant : Cfg := { mergeScenario with preds := emptyListF, succs := emptyListF }

/-! # Theorems -/

/-! ## Counting helper lemmas -/

theorem upd_apply {α : Type} (f : Nat → α) (k : Nat) (v : α) (x : Nat) :
    upd f k v x = if x = k then v else f x := rfl

theorem subst_of_eq (old new : Nat) : subst old new old = new := by
  simp [subst]

theorem subst_of_ne (old new x : Nat) (h : x ≠ old) : subst old new x = x := by
  simp [subst, h]

theorem subst_subst (old new x : Nat) :
    subst old new (subst old new x) = subst old new x := by
  by_cases h1 : x = old
  · subst h1
    rw [subst_of_eq]
    by_cases h2 : new = x
    · subst h2
      rw [subst_of_eq]
    · rw [subst_of_ne _ _ _ h2]
  · rw [subst_of_ne _ _ _ h1, subst_of_ne _ _ _ h1]

theorem map_subst_self (a : Nat) (l : List Nat) : l.map (subst a a) = l := by
  induction l with
  | nil => rfl
  | cons x xs ih =>
    rw [List.map_cons, ih]
    by_cases h : x = a
    · subst h; rw [subst_of_eq]
    · rw [subst_of_ne _ _ _ h]

theorem map_subst_idem (old new : Nat) (l : List Nat) :
    (l.map (subst old new)).map (subst old new) = l.map (subst old new) := by
  rw [List.map_map]
  have hc : subst old new ∘ subst old new = subst old new := by
    funext x; exact subst_subst old new x
  rw [hc]

theorem map_subst_of_not_mem (old new : Nat) (l : List Nat) (h : old ∉ l) :
    l.map (subst old new) = l := by
  induction l with
  | nil => rfl
  | cons x xs ih =>
    simp only [List.mem_cons, not_or] at h
    rw [List.map_cons, ih h.2, subst_of_ne _ _ _ (Ne.symm h.1)]

theorem count_map_subst_old (old new : Nat) (hne : old ≠ new) (l : List Nat) :
    (l.map (subst old new)).count old = 0 := by
  induction l with
  | nil => rfl
  | cons x xs ih =>
    rw [List.map_cons, List.count_cons, ih]
    have hx : subst old new x ≠ old := by
      by_cases h : x = old
      · subst h; rw [subst_of_eq]; exact Ne.symm hne
      · rw [subst_of_ne _ _ _ h]; exact h
    simp [beq_iff_eq, hx]

theorem count_map_subst_new (old new : Nat) (hne : old ≠ new) (l : List Nat) :
    (l.map (subst old new)).count new = l.count new + l.count old := by
  induction l with
  | nil => rfl
  | cons x xs ih =>
    rw [List.map_cons, List.count_cons, ih, List.count_cons, List.count_cons]
    by_cases h : x = old
    · subst h
      rw [subst_of_eq]
      simp only [beq_iff_eq]
      split_ifs <;> omega
    · rw [subst_of_ne _ _ _ h]
      simp only [beq_iff_eq]
      split_ifs <;> omega

theorem count_map_subst_other (old new x : Nat) (h1 : x ≠ old) (h2 : x ≠ new) (l : List Nat) :
    (l.map (subst old new)).count x = l.count x := by
  induction l with
  | nil => rfl
  | cons y ys ih =>
    rw [List.map_cons, List.count_cons, ih, List.count_cons]
    by_cases h : y = old
    · subst h
      rw [subst_of_eq]
      simp only [beq_iff_eq]
      split_ifs <;> omega
    · rw [subst_of_ne _ _ _ h]

theorem not_mem_map_subst (old new : Nat) (hne : old ≠ new) (l : List Nat) :
    old ∉ l.map (subst old new) := by
  intro h
  have := count_map_subst_old old new hne l
  rw [List.count_eq_zero] at this
  exact this h

theorem count_eraseTimes_self (a : Nat) :
    ∀ (n : Nat) (l : List Nat), (eraseTimes l a n).count a = l.count a - n := by
  intro n
  induction n with
  | zero => intro l; simp [eraseTimes]
  | succ m ih =>
    intro l
    show (eraseTimes (l.erase a) a m).count a = l.count a - (m + 1)
    rw [ih, List.count_erase_self]
    omega

theorem count_eraseTimes_of_ne (a b : Nat) (hne : b ≠ a) :
    ∀ (n : Nat) (l : List Nat), (eraseTimes l a n).count b = l.count b := by
  intro n
  induction n with
  | zero => intro l; simp [eraseTimes]
  | succ m ih =>
    intro l
    show (eraseTimes (l.erase a) a m).count b = l.count b
    rw [ih, List.count_erase_of_ne hne]

theorem count_eraseTimes (a b : Nat) (n : Nat) (l : List Nat) :
    (eraseTimes l a n).count b = if b = a then l.count b - n else l.count b := by
  split_ifs with h
  · subst h; exact count_eraseTimes_self b n l
  · exact count_eraseTimes_of_ne a b h n l

theorem length_eraseTimes (a : Nat) :
    ∀ (n : Nat) (l : List Nat), n ≤ l.count a → (eraseTimes l a n).length = l.length - n := by
  intro n
  induction n with
  | zero => intro l _; simp [eraseTimes]
  | succ m ih =>
    intro l h
    show (eraseTimes (l.erase a) a m).length = l.length - (m + 1)
    have hmem : a ∈ l := by
      rw [← List.count_pos_iff]; omega
    have hc : m ≤ (l.erase a).count a := by
      rw [List.count_erase_self]; omega
    have hlen : 0 < l.length := List.length_pos.mpr (by rintro rfl; simp at hmem)
    rw [ih _ hc, List.length_erase, if_pos hmem]
    omega

theorem mem_of_mem_eraseTimes (a x : Nat) :
    ∀ (n : Nat) (l : List Nat), x ∈ eraseTimes l a n → x ∈ l := by
  intro n
  induction n with
  | zero => intro l h; exact h
  | succ m ih =>
    intro l h
    exact List.mem_of_mem_erase (ih _ h)

/-! ## U1 preservation: each operand edit keeps use-count symmetry -/

theorem u1_addOperand (s : UD) (i v : Nat) (h : U1 s) : U1 (addOperand s i v) := by
  intro x j
  simp only [addOperand, addUse, upd]
  have hxj := h x j
  have hxi := h x i
  have hvj := h v j
  split_ifs with h1 h2 h2 <;>
    (try simp_all [List.count_append, List.count_singleton, beq_iff_eq]) <;>
    (try split_ifs) <;> omega

theorem u1_setOperand (s : UD) (i k v : Nat) (h : U1 s) : U1 (setOperand s i k v) := by
  intro x j
  rw [setOperand]
  split
  case isFalse => exact h x j
  case isTrue hk =>
    simp only [addUse, removeUse, upd, List.get_eq_getElem]
    have holdmem : (s.operands i)[k] ∈ s.operands i := List.getElem_mem hk
    have holdpos : 0 < (s.operands i).count ((s.operands i)[k]) :=
      List.count_pos_iff.mpr holdmem
    have hxj := h x j
    have hxi := h x i
    have holdi := h ((s.operands i)[k]) i
    have hset := List.count_set v x (s.operands i) k hk
    by_cases h1 : j = i <;> by_cases h2 : x = v <;> by_cases h3 : x = (s.operands i)[k] <;>
      simp_all [List.count_append, List.count_singleton, List.count_erase, beq_iff_eq] <;>
      (try split_ifs) <;> omega

theorem u1_replaceOperand (s : UD) (i old new : Nat) (h : U1 s) :
    U1 (replaceOperand s i old new) := by
  intro x j
  simp only [replaceOperand, upd]
  have hxj := h x j
  have hxi := h x i
  have holdi := h old i
  have hnewi := h new i
  by_cases hon : old = new
  · subst hon
    by_cases h1 : j = i <;> by_cases h2 : x = old <;>
      simp_all [map_subst_self, List.count_append, List.count_replicate,
        count_eraseTimes, beq_iff_eq] <;>
      (try split_ifs) <;> omega
  · have hmold := count_map_subst_old old new hon (s.operands i)
    have hmnew := count_map_subst_new old new hon (s.operands i)
    by_cases h1 : j = i <;> by_cases h2 : x = old <;> by_cases h3 : x = new <;>
      (try exact absurd (h2.symm.trans h3) (Ne.symm hon)) <;>
      simp_all [List.count_append, List.count_replicate, count_eraseTimes,
        count_map_subst_other, beq_iff_eq] <;>
      (try split_ifs) <;> omega

theorem removeUseFold_count_self (i : Nat) :
    ∀ (L : List Nat) (uses : Nat → List Nat),
      (∀ x, L.count x ≤ (uses x).count i) →
      ∀ x, (removeUseFold i uses L x).count i = (uses x).count i - L.count x := by
  intro L
  induction L with
  | nil => intro uses _ x; simp [removeUseFold]
  | cons v rest ih =>
    intro uses hle x
    show (removeUseFold i (upd uses v ((uses v).erase i)) rest x).count i = _
    have hvi : rest.count v + 1 ≤ (uses v).count i := by
      have := hle v
      simp [List.count_cons] at this
      omega
    have hle2 : ∀ y, rest.count y ≤ ((upd uses v ((uses v).erase i)) y).count i := by
      intro y
      by_cases hyv : y = v
      · subst hyv
        simp [upd, List.count_erase_self]
        omega
      · simp [upd, hyv]
        have := hle y
        simp [List.count_cons, beq_iff_eq, Ne.symm hyv] at this
        omega
    rw [ih _ hle2 x]
    by_cases hxv : x = v
    · subst hxv
      simp [upd, List.count_erase_self, List.count_cons]
      omega
    · simp [upd, hxv, List.count_cons, beq_iff_eq, Ne.symm hxv]

theorem removeUseFold_count_ne (i j : Nat) (hji : j ≠ i) :
    ∀ (L : List Nat) (uses : Nat → List Nat) (x : Nat),
      (removeUseFold i uses L x).count j = (uses x).count j := by
  intro L
  induction L with
  | nil => intro uses x; simp [removeUseFold]
  | cons v rest ih =>
    intro uses x
    show (removeUseFold i (upd uses v ((uses v).erase i)) rest x).count j = _
    rw [ih]
    by_cases hxv : x = v
    · subst hxv; simp [upd, List.count_erase_of_ne hji]
    · simp [upd, hxv]

theorem u1_clearOperands (s : UD) (i : Nat) (h : U1 s) : U1 (clearOperands s i) := by
  intro x j
  simp only [clearOperands, upd]
  by_cases h1 : j = i
  · subst h1
    have hle : ∀ y, (s.operands j).count y ≤ (s.uses y).count j := by
      intro y; rw [h y j]
    rw [if_pos rfl, removeUseFold_count_self j _ _ hle x]
    have := h x j
    simp
    omega
  · rw [if_neg h1, removeUseFold_count_ne i j h1]
    exact h x j

theorem u1_foldl_replaceOperand (v w : Nat) :
    ∀ (L : List Nat) (s : UD), U1 s →
      U1 (L.foldl (fun st i => replaceOperand st i v w) s) := by
  intro L
  induction L with
  | nil => intro s h; exact h
  | cons i rest ih =>
    intro s h
    exact ih _ (u1_replaceOperand s i v w h)

theorem u1_replaceAllUsesWith (s : UD) (v w : Nat) (h : U1 s) :
    U1 (replaceAllUsesWith s v w) :=
  u1_foldl_replaceOperand v w (s.uses v) s h

theorem u1_applyEdit (s : UD) (op : EditOp) (h : U1 s) : U1 (applyEdit s op) := by
  cases op with
  | addOperand i v => exact u1_addOperand s i v h
  | setOperand i k v => exact u1_setOperand s i k v h
  | replaceOperand i old new => exact u1_replaceOperand s i old new h
  | clearOperands i => exact u1_clearOperands s i h
  | replaceAllUsesWith v w => exact u1_replaceAllUsesWith s v w h

/-- Claim C1: for every Value `v` and every Instr `i`, after any sequence of
operand edits (addOperand, setOperand, replaceOperand, clearOperands,
replaceAllUsesWith) applied to a state satisfying use-count symmetry, the
number of `i`'s operand slots referencing `v` equals the number of entries
equal to `i` in `v`'s use list (invariant U1). -/
theorem c1_use_count_symmetry (s : UD) (ops : List EditOp) (h : U1 s) :
    U1 (applyEdits s ops) := by
  induction ops generalizing s with
  | nil => exact h
  | cons op rest ih => exact ih _ (u1_applyEdit s op h)

/-- Witness for C1: a concrete edit sequence applied to the fresh state,
with the U1 hypothesis discharged there. -/
theorem c1_use_count_symmetry_witness :
    U1 (applyEdits ud0
      [EditOp.addOperand 1 0, EditOp.addOperand 1 0, EditOp.setOperand 1 0 2,
       EditOp.replaceOperand 1 0 3, EditOp.clearOperands 1,
       EditOp.addOperand 1 5, EditOp.replaceAllUsesWith 5 6]) :=
  c1_use_count_symmetry ud0 _ (fun _ _ => rfl)

/-! ## replaceAllUsesWith: step facts and fold invariants -/

theorem ro_uses_v (st : UD) (i v w : Nat) (hvw : v ≠ w) :
    (replaceOperand st i v w).uses v
      = eraseTimes (st.uses v) i ((st.operands i).count v) := by
  simp [replaceOperand, upd, hvw]

theorem ro_uses_w (st : UD) (i v w : Nat) (hvw : v ≠ w) :
    (replaceOperand st i v w).uses w
      = st.uses w ++ List.replicate ((st.operands i).count v) i := by
  simp [replaceOperand, upd, Ne.symm hvw]

theorem ro_uses_other (st : UD) (i v w x : Nat) (hxv : x ≠ v) (hxw : x ≠ w) :
    (replaceOperand st i v w).uses x = st.uses x := by
  simp [replaceOperand, upd, hxv, hxw]

theorem ro_ops_self (st : UD) (i v w : Nat) :
    (replaceOperand st i v w).operands i = (st.operands i).map (subst v w) := by
  simp [replaceOperand, upd]

theorem ro_ops_ne (st : UD) (i v w j : Nat) (hji : j ≠ i) :
    (replaceOperand st i v w).operands j = st.operands j := by
  simp [replaceOperand, upd, hji]

theorem rauw_fold_uses_v_nil (v w : Nat) (hvw : v ≠ w) :
    ∀ (L : List Nat) (s : UD), U1 s → (∀ x, x ∈ s.uses v → x ∈ L) →
      (L.foldl (fun st i => replaceOperand st i v w) s).uses v = [] := by
  intro L
  induction L with
  | nil =>
    intro s _ hsub
    exact List.eq_nil_iff_forall_not_mem.mpr (fun a ha => (List.not_mem_nil a) (hsub a ha))
  | cons i rest ih =>
    intro s hU hsub
    rw [List.foldl_cons]
    apply ih _ (u1_replaceOperand s i v w hU)
    intro x hx
    rw [ro_uses_v s i v w hvw] at hx
    have hxin : x ∈ s.uses v := mem_of_mem_eraseTimes i x _ _ hx
    have hxne : x ≠ i := by
      intro he
      subst he
      have h0 : (eraseTimes (s.uses v) x ((s.operands x).count v)).count x = 0 := by
        rw [count_eraseTimes, if_pos rfl, hU v x]
        omega
      rw [List.count_eq_zero] at h0
      exact h0 hx
    rcases List.mem_cons.mp (hsub x hxin) with he | hr
    · exact absurd he hxne
    · exact hr

theorem rauw_fold_len (v w : Nat) (hvw : v ≠ w) :
    ∀ (L : List Nat) (s : UD), U1 s →
      ((L.foldl (fun st i => replaceOperand st i v w) s).uses w).length
        + ((L.foldl (fun st i => replaceOperand st i v w) s).uses v).length
      = (s.uses w).length + (s.uses v).length := by
  intro L
  induction L with
  | nil => intro s _; rfl
  | cons i rest ih =>
    intro s hU
    rw [List.foldl_cons, ih _ (u1_replaceOperand s i v w hU)]
    have hc : (s.operands i).count v = (s.uses v).count i := hU v i
    have hcle : (s.uses v).count i ≤ (s.uses v).length := List.count_le_length i (s.uses v)
    rw [ro_uses_v s i v w hvw, ro_uses_w s i v w hvw]
    rw [length_eraseTimes i _ _ (le_of_eq hc), List.length_append, List.length_replicate]
    omega

theorem rauw_fold_ops (v w : Nat) (s0 : UD) :
    ∀ (L : List Nat) (s : UD),
      (∀ i, s.operands i = s0.operands i ∨ s.operands i = (s0.operands i).map (subst v w)) →
      ∀ i, (L.foldl (fun st i => replaceOperand st i v w) s).operands i = s0.operands i
        ∨ (L.foldl (fun st i => replaceOperand st i v w) s).operands i
            = (s0.operands i).map (subst v w) := by
  intro L
  induction L with
  | nil => intro s hp i; exact hp i
  | cons i0 rest ih =>
    intro s hp i
    rw [List.foldl_cons]
    apply ih
    intro j
    by_cases hj : j = i0
    · subst hj
      rw [ro_ops_self]
      rcases hp j with he | he
      · rw [he]; exact Or.inr rfl
      · rw [he, map_subst_idem]; exact Or.inr rfl
    · rw [ro_ops_ne _ _ _ _ _ hj]
      exact hp j

theorem rauw_fold_uses_other (v w : Nat) :
    ∀ (L : List Nat) (s : UD) (x : Nat), x ≠ v → x ≠ w →
      (L.foldl (fun st i => replaceOperand st i v w) s).uses x = s.uses x := by
  intro L
  induction L with
  | nil => intro s x _ _; rfl
  | cons i rest ih =>
    intro s x hxv hxw
    rw [List.foldl_cons, ih _ _ hxv hxw, ro_uses_other _ _ _ _ _ hxv hxw]

/-- Counterexample to claim C3 as stated: in a consistent state where value 0
has a user, `replaceAllUsesWith` applied with the same value as replacement
(`w = v`) leaves the use list non-empty, so the use count is not 0. -/
theorem c3_rauw_self_counterexample :
    udSelf.uses 0 ≠ [] ∧ (replaceAllUsesWith udSelf 0 0).uses 0 ≠ [] := by decide

/-- Claim C3 (amended with `w ≠ v`): in a state satisfying U1, for a value
`v` with users, after `v.replaceAllUsesWith(w)` with `w` distinct from `v`:
`v`'s use list is empty; `w`'s use count grew by exactly `v`'s prior use
count; every operand list keeps its length; every operand slot that held `v`
now holds `w` at the same index; use lists of all other values are
untouched. -/
theorem c3_replace_all_uses_with (s : UD) (v w : Nat) (hU : U1 s)
    (_hused : s.uses v ≠ []) (hvw : v ≠ w) :
    (replaceAllUsesWith s v w).uses v = []
    ∧ ((replaceAllUsesWith s v w).uses w).length = (s.uses w).length + (s.uses v).length
    ∧ (∀ i, ((replaceAllUsesWith s v w).operands i).length = (s.operands i).length)
    ∧ (∀ i j, (s.operands i).get? j = some v →
        ((replaceAllUsesWith s v w).operands i).get? j = some w)
    ∧ (∀ x, x ≠ v → x ≠ w → (replaceAllUsesWith s v w).uses x = s.uses x) := by
  have hTu : U1 (replaceAllUsesWith s v w) := u1_replaceAllUsesWith s v w hU
  have hnil : (replaceAllUsesWith s v w).uses v = [] :=
    rauw_fold_uses_v_nil v w hvw (s.uses v) s hU (fun x hx => hx)
  have hops : ∀ i, (replaceAllUsesWith s v w).operands i = s.operands i
      ∨ (replaceAllUsesWith s v w).operands i = (s.operands i).map (subst v w) :=
    rauw_fold_ops v w s (s.uses v) s (fun _ => Or.inl rfl)
  have hvnot : ∀ i, v ∉ (replaceAllUsesWith s v w).operands i := by
    intro i
    rw [← List.count_eq_zero, hTu v i, hnil]
    rfl
  refine ⟨hnil, ?_, ?_, ?_, ?_⟩
  · have := rauw_fold_len v w hvw (s.uses v) s hU
    rw [show replaceAllUsesWith s v w = (s.uses v).foldl (fun st i => replaceOperand st i v w) s from rfl]
    rw [show ((s.uses v).foldl (fun st i => replaceOperand st i v w) s).uses v = [] from hnil] at this
    simp at this
    omega
  · intro i
    rcases hops i with he | he
    · rw [he]
    · rw [he, List.length_map]
  · intro i j hslot
    have hjlt : j < (s.operands i).length := by
      by_contra hge
      rw [List.get?_eq_none.mpr (by omega)] at hslot
      exact Option.noConfusion hslot
    have hvin : v ∈ s.operands i := by
      have := List.get?_mem hslot
      exact this
    rcases hops i with he | he
    · have hv2 := hvnot i
      rw [he] at hv2
      exact absurd hvin hv2
    · rw [he, List.get?_map, hslot]
      simp [subst_of_eq]
  · intro x hxv hxw
    exact rauw_fold_uses_other v w (s.uses v) s x hxv hxw

/-- U1 holds in the concrete one-user state. -/
theorem u1_udSelf : U1 udSelf := by
  intro v i
  by_cases hv : v = 0 <;> by_cases hi : i = 1 <;>
    simp [udSelf, ud0, upd, emptyListF, hv, hi, List.count_singleton, beq_iff_eq] <;>
    (try split_ifs) <;> omega

/-- Witness for C3: the amended theorem applied at the concrete state where
instruction 1 uses value 0, replacing 0 by the distinct value 5. -/
theorem c3_replace_all_uses_with_witness :
    (replaceAllUsesWith udSelf 0 5).uses 0 = []
    ∧ ((replaceAllUsesWith udSelf 0 5).uses 5).length
        = (udSelf.uses 5).length + (udSelf.uses 0).length
    ∧ (∀ i, ((replaceAllUsesWith udSelf 0 5).operands i).length = (udSelf.operands i).length)
    ∧ (∀ i j, (udSelf.operands i).get? j = some 0 →
        ((replaceAllUsesWith udSelf 0 5).operands i).get? j = some 5)
    ∧ (∀ x, x ≠ 0 → x ≠ 5 → (replaceAllUsesWith udSelf 0 5).uses x = udSelf.uses x) :=
  c3_replace_all_uses_with udSelf 0 5 u1_udSelf (by decide) (by decide)

/-! ## clone -/

/-- Counterexample to claim C9 as stated: for an instruction whose two
operand slots hold the same value (operands `[7, 7]`, allowed since the use
list is an intentional-duplicate multiset), cloning adds one use edge per
copied operand, so value 7's use count grows by 2, not by exactly 1. -/
theorem c9_clone_counterexample :
    udDup.operands 1 = [7, 7]
    ∧ ((clone udDup 1 2).uses 7).length = (udDup.uses 7).length + 2
    ∧ ¬ ((clone udDup 1 2).uses 7).length = (udDup.uses 7).length + 1 := by
  decide

/-- Claim C9 (amended to distinct operand values): cloning instruction `i`
with operand slots `[v1, v2]`, `v1` distinct from `v2`, into a fresh id
yields a detached instruction of the same kind with the same operand list;
each operand value gains exactly one use; the original instruction is
unchanged and remains a user of its operands with unchanged multiplicity. -/
theorem c9_clone (s : UD) (i newId v1 v2 : Nat) (hops : s.operands i = [v1, v2])
    (h12 : v1 ≠ v2) (hfresh : newId ≠ i) :
    (clone s i newId).operands newId = [v1, v2]
    ∧ (clone s i newId).owner newId = none
    ∧ (clone s i newId).kind newId = s.kind i
    ∧ ((clone s i newId).uses v1).length = (s.uses v1).length + 1
    ∧ ((clone s i newId).uses v2).length = (s.uses v2).length + 1
    ∧ (clone s i newId).operands i = s.operands i
    ∧ (clone s i newId).owner i = s.owner i
    ∧ ((clone s i newId).uses v1).count i = (s.uses v1).count i
    ∧ ((clone s i newId).uses v2).count i = (s.uses v2).count i := by
  have hfresh' : ¬ (i = newId) := fun he => hfresh he.symm
  refine ⟨?_, ?_, ?_, ?_, ?_, ?_, ?_, ?_, ?_⟩ <;>
    simp [clone, addUsesFold, upd, hops, h12, Ne.symm h12, hfresh', hfresh,
      List.count_append, List.count_singleton, beq_iff_eq]

/-- Witness for C9: cloning the concrete instruction 1 with operands
[10, 11] into the fresh id 2. -/
theorem c9_clone_witness :
    (clone udClone 1 2).operands 2 = [10, 11]
    ∧ (clone udClone 1 2).owner 2 = none
    ∧ (clone udClone 1 2).kind 2 = udClone.kind 1
    ∧ ((clone udClone 1 2).uses 10).length = (udClone.uses 10).length + 1
    ∧ ((clone udClone 1 2).uses 11).length = (udClone.uses 11).length + 1
    ∧ (clone udClone 1 2).operands 1 = udClone.operands 1
    ∧ (clone udClone 1 2).owner 1 = udClone.owner 1
    ∧ ((clone udClone 1 2).uses 10).count 1 = (udClone.uses 10).count 1
    ∧ ((clone udClone 1 2).uses 11).count 1 = (udClone.uses 11).count 1 :=
  c9_clone udClone 1 2 10 11 (by decide) (by decide) (by decide)

/-! ## CFG symmetry -/

theorem b1_of_countSym (c : Cfg) (h : countSym c) : B1 c := by
  intro x y
  simp only [← List.count_pos_iff, h x y]

theorem rewritePreds_eq (b a : Nat) :
    ∀ (L : List Nat) (preds : Nat → List Nat) (x : Nat),
      rewritePreds b a preds L x
        = if x ∈ L then (preds x).map (subst b a) else preds x := by
  intro L
  induction L with
  | nil => intro preds x; simp [rewritePreds]
  | cons s0 rest ih =>
    intro preds x
    show rewritePreds b a (upd preds s0 ((preds s0).map (subst b a))) rest x = _
    rw [ih]
    by_cases hx : x ∈ rest
    · rw [if_pos hx, if_pos (List.mem_cons_of_mem s0 hx)]
      by_cases hxs : x = s0
      · subst hxs
        simp only [upd, if_pos rfl]
        exact map_subst_idem b a (preds x)
      · simp [upd, hxs]
    · by_cases hxs : x = s0
      · subst hxs
        rw [if_neg hx, if_pos (List.mem_cons_self _ _)]
        simp [upd]
      · rw [if_neg hx, if_neg (by simp [List.mem_cons, hxs, hx])]
        simp [upd, hxs]

theorem countSym_link (c : Cfg) (a b : Nat) (h : countSym c) :
    countSym (linkSuccessor c a b) := by
  intro x y
  simp only [linkSuccessor, upd]
  have hxy := h x y
  by_cases h1 : x = a <;> by_cases h2 : y = b <;>
    simp_all [List.count_append, List.count_singleton, beq_iff_eq] <;>
    (try split_ifs) <;> omega

theorem countSym_unlink (c : Cfg) (a b : Nat) (h : countSym c) :
    countSym (unlinkSuccessor c a b) := by
  intro x y
  simp only [unlinkSuccessor, upd]
  have hxy := h x y
  by_cases h1 : x = a <;> by_cases h2 : y = b <;>
    simp_all [List.count_erase, beq_iff_eq] <;>
    (try split_ifs) <;> omega

theorem countSym_merge (c : Cfg) (a b : Nat) (hab : a ≠ b) (hpb : c.preds b = [])
    (h : countSym c) : countSym (merge_back c a b) := by
  rw [merge_back]
  split
  case isTrue => exact h
  case isFalse =>
    intro x y
    simp only [upd, rewritePreds_eq]
    have hbz : ∀ z, (c.succs z).count b = 0 := by
      intro z
      rw [h z b, hpb]
      rfl
    have hba : b ≠ a := Ne.symm hab
    by_cases hxb : x = b
    · rw [if_pos hxb, List.count_nil]
      by_cases hyb : y = b
      · rw [if_pos hyb, List.count_nil]
      · rw [if_neg hyb]
        by_cases hym : y ∈ c.succs b
        · rw [if_pos hym, hxb, count_map_subst_old _ _ hba]
        · rw [if_neg hym, hxb, ← h b y]
          exact (List.count_eq_zero.mpr hym).symm
    · rw [if_neg hxb]
      by_cases hxa : x = a
      · rw [if_pos hxa, List.count_append]
        by_cases hyb : y = b
        · rw [if_pos hyb, List.count_nil, hyb, hbz a, hbz b]
        · rw [if_neg hyb]
          by_cases hym : y ∈ c.succs b
          · rw [if_pos hym, hxa, count_map_subst_new _ _ hba, h a y, h b y]
          · rw [if_neg hym, List.count_eq_zero.mpr hym, hxa, h a y]
            omega
      · rw [if_neg hxa]
        by_cases hyb : y = b
        · rw [if_pos hyb, List.count_nil, hyb, hbz x]
        · rw [if_neg hyb]
          by_cases hym : y ∈ c.succs b
          · rw [if_pos hym, count_map_subst_other _ _ _ hxb hxa, h x y]
          · rw [if_neg hym, h x y]

theorem countSym_applyCfgOp (c : Cfg) (op : CfgOp) (h : countSym c)
    (hok : mergeOk c op = true) : countSym (applyCfgOp c op) := by
  cases op with
  | link a b => exact countSym_link c a b h
  | unlink a b => exact countSym_unlink c a b h
  | merge a b =>
    simp only [mergeOk, Bool.and_eq_true, decide_eq_true_eq, List.isEmpty_iff] at hok
    exact countSym_merge c a b hok.1 hok.2 h

theorem countSym_applyCfgOps (ops : List CfgOp) :
    ∀ (c : Cfg), countSym c → validOk c ops = true → countSym (applyCfgOps c ops) := by
  induction ops with
  | nil => intro c h _; exact h
  | cons op rest ih =>
    intro c h hok
    simp only [validOk, Bool.and_eq_true] at hok
    exact ih _ (countSym_applyCfgOp c op h hok.1) hok.2

/-- Counterexample to claim C2 as stated: starting from the empty CFG,
linking an edge 0 → 1 and then merging block 1 into block 0 leaves 1 in
block 0's successor set while block 1's predecessor set has been emptied, so
B1 fails after this sequence of link/merge operations. -/
theorem c2_b1_counterexample :
    ¬ B1 (applyCfgOps cfg0 [CfgOp.link 0 1, CfgOp.merge 0 1]) := by
  intro hB
  have h1 : (1 : Nat) ∈ (applyCfgOps cfg0 [CfgOp.link 0 1, CfgOp.merge 0 1]).succs 0 := by
    decide
  have h2 := (hB 0 1).mp h1
  revert h2
  decide

/-- Claim C2 (amended): starting from a CFG whose edge lists are count
symmetric, B1 holds after any sequence of linkSuccessor, unlinkSuccessor and
merge_back operations in which every merge_back targets a distinct block
with no incoming edges at that point. -/
theorem c2_cfg_symmetry (c : Cfg) (ops : List CfgOp) (h : countSym c)
    (hok : validOk c ops = true) : B1 (applyCfgOps c ops) :=
  b1_of_countSym _ (countSym_applyCfgOps ops c h hok)

/-- Witness for C2: a concrete operation sequence from the empty CFG, with
both hypotheses discharged there. -/
theorem c2_cfg_symmetry_witness :
    B1 (applyCfgOps cfg0
      [CfgOp.link 0 1, CfgOp.link 1 2, CfgOp.unlink 0 1, CfgOp.merge 2 1]) :=
  c2_cfg_symmetry cfg0 _ (fun _ _ => rfl) (by decide)

/-! ## merge scenario, completeness, layout order, back(sub), operand access -/

/-- Claim C5: for A = [a1, a2] (not complete) and B = [b1, b2] with successor
set containing only C, after A.merge_back(B): A's instruction sequence is
[a1, a2, b1, b2], B's is empty, A's successor set is exactly C, C's
predecessor set contains A and not B, and B's predecessor and successor sets
are empty. -/
theorem c5_merge_scenario :
    (merge_back mergeScenario 0 1).code 0 = [ia1, ia2, ib1, ib2]
    ∧ (merge_back mergeScenario 0 1).code 1 = []
    ∧ (merge_back mergeScenario 0 1).succs 0 = [2]
    ∧ 0 ∈ (merge_back mergeScenario 0 1).preds 2
    ∧ 1 ∉ (merge_back mergeScenario 0 1).preds 2
    ∧ (merge_back mergeScenario 0 1).preds 1 = []
    ∧ (merge_back mergeScenario 0 1).succs 1 = [] := by
  decide

/-- Claim C6: a basic block is not complete when empty, not complete when
its last instruction is neither a terminator nor a call known never to
return, and complete once a terminator is the last instruction. -/
theorem c6_is_complete (c : Cfg) (b : Nat) :
    (c.code b = [] → isComplete c b = false)
    ∧ (∀ i, (c.code b).getLast? = some i → i.isTerminator = false →
        i.neverReturns = false → isComplete c b = false)
    ∧ (∀ i, (c.code b).getLast? = some i → i.isTerminator = true →
        isComplete c b = true) := by
  refine ⟨?_, ?_, ?_⟩
  · intro he
    simp [isComplete, he]
  · intro i hl ht hn
    simp [isComplete, hl, ht, hn]
  · intro i hl ht
    simp [isComplete, hl, ht]

/-- Witness for C6: an empty block, a block ending in a plain instruction,
and a block ending in a terminator. -/
theorem c6_is_complete_witness :
    isComplete cfg0 0 = false
    ∧ isComplete mergeScenario 0 = false
    ∧ isComplete cfgTerm 0 = true :=
  ⟨(c6_is_complete cfg0 0).1 rfl,
   (c6_is_complete mergeScenario 0).2.1 ia2 (by decide) (by decide) (by decide),
   (c6_is_complete cfgTerm 0).2.2 iterm (by decide) (by decide)⟩

theorem isAfterGo_iff (a b : Nat) :
    ∀ l : List Nat,
      isAfterGo a b l = true ↔ b ∈ l ∧ a ∈ l ∧ l.indexOf b < l.indexOf a := by
  intro l
  induction l with
  | nil => simp [isAfterGo]
  | cons x xs ih =>
    rw [isAfterGo]
    by_cases hxa : x = a
    · subst hxa
      simp [List.indexOf_cons_self]
    · by_cases hxb : x = b
      · subst hxb
        rw [if_neg hxa, if_pos rfl]
        have hab : ¬ a = x := fun he => hxa he.symm
        simp [List.indexOf_cons_self, List.indexOf_cons_ne _ hxa, hab,
          decide_eq_true_iff]
      · rw [if_neg hxa, if_neg hxb, ih]
        have hbx : ¬ b = x := fun he => hxb he.symm
        have hax : ¬ a = x := fun he => hxa he.symm
        simp [List.mem_cons, hbx, hax, List.indexOf_cons_ne _ hxb,
          List.indexOf_cons_ne _ hxa, Nat.succ_lt_succ_iff]

/-- Claim C8: isAfter is exactly the linear layout order — it is true iff
`b` occurs in the layout strictly before `a` — and it depends only on the
layout, not on CFG edges or dominance. -/
theorem c8_is_after (c : Cfg) (a b : Nat) :
    (isAfter c a b = true
      ↔ b ∈ c.layout ∧ a ∈ c.layout ∧ c.layout.indexOf b < c.layout.indexOf a)
    ∧ (∀ c2 : Cfg, c2.layout = c.layout → isAfter c2 a b = isAfter c a b) := by
  constructor
  · exact isAfterGo_iff a b c.layout
  · intro c2 he
    simp [isAfter, he]

/-- Witness for C8: in layout [0, 1, 2], block 2 is after block 0, and the
answer is unchanged when all CFG edges are removed. -/
theorem c8_is_after_witness :
    isAfter mergeScenario 2 0 = true
    ∧ isAfter cfgLayoutVariant 2 0 = isAfter mergeScenario 2 0 :=
  ⟨(c8_is_after mergeScenario 2 0).1.mpr (by decide),
   (c8_is_after mergeScenario 2 0).2 cfgLayoutVariant (by decide)⟩

/-- Counterexample to claim C10 as stated: at `sub = SIZE_MAX` on a block of
two instructions, `sub + 1 > size` — yet the `size_t` guard `sub + 1 <=
code_.size()` wraps to `0 <= 2` and passes, and the access index
`size - (1 + sub)` computed in `size_t` equals the size itself, an
out-of-bounds access instead of the claimed nullptr return. -/
theorem c10_bb_back_counterexample :
    ([ia1, ia2] : List SInstr).length < (sizeTW - 1) + 1
    ∧ ((sizeTW - 1) + 1) % sizeTW ≤ ([ia1, ia2] : List SInstr).length % sizeTW
    ∧ sizeTSub ([ia1, ia2] : List SInstr).length (1 + (sizeTW - 1)) = 2
    ∧ ¬ sizeTSub ([ia1, ia2] : List SInstr).length (1 + (sizeTW - 1))
        < ([ia1, ia2] : List SInstr).length := by
  decide

/-- Claim C10 (amended to non-wrapping indices): for every `sub` with
`sub + 1` below the `size_t` modulus, `back(sub)` returns the (sub+1)-th
instruction from the end (the sub-th element of the reversed sequence) when
`sub + 1 <= size`, returns nullptr (none) when `sub + 1 > size`, and the
in-range access index is within bounds. -/
theorem c10_bb_back (code : List SInstr) (sub : Nat) (hsub : sub + 1 < sizeTW)
    (hlen : code.length < sizeTW) :
    bbBack code sub = code.reverse.get? sub
    ∧ (bbBack code sub = none ↔ code.length < sub + 1)
    ∧ (sub + 1 ≤ code.length → sizeTSub code.length (1 + sub) < code.length) := by
  have h1 : (sub + 1) % sizeTW = sub + 1 := Nat.mod_eq_of_lt hsub
  have h2 : code.length % sizeTW = code.length := Nat.mod_eq_of_lt hlen
  by_cases hle : sub + 1 ≤ code.length
  · have h3 : sizeTSub code.length (1 + sub) = code.length - (1 + sub) := by
      rw [sizeTSub, h2, Nat.mod_eq_of_lt (show 1 + sub < sizeTW by omega)]
      rw [show code.length + (sizeTW - (1 + sub)) = (code.length - (1 + sub)) + sizeTW
        by omega]
      rw [Nat.add_mod_right]
      exact Nat.mod_eq_of_lt (by omega)
    have hidx : code.length - (1 + sub) < code.length := by omega
    have hs : sub < code.length := by omega
    refine ⟨?_, ?_, fun _ => by rw [h3]; exact hidx⟩
    · rw [bbBack, h1, h2, if_pos hle, h3, List.get?_reverse hs]
      congr 1
      omega
    · rw [bbBack, h1, h2, if_pos hle, h3, List.get?_eq_get hidx]
      exact iff_of_false (fun hc => Option.noConfusion hc) (by omega)
  · refine ⟨?_, ?_, fun hc => absurd hc hle⟩
    · rw [bbBack, h1, h2, if_neg hle]
      symm
      rw [List.get?_eq_none]
      simp only [List.length_reverse]
      omega
    · rw [bbBack, h1, h2, if_neg hle]
      exact iff_of_true rfl (by omega)

/-- Witness for C10: the amended theorem applied to the two-instruction
block at sub = 1, with both non-wrapping hypotheses discharged there. -/
theorem c10_bb_back_witness :
    bbBack [ia1, ia2] 1 = ([ia1, ia2] : List SInstr).reverse.get? 1
    ∧ (bbBack [ia1, ia2] 1 = none ↔ ([ia1, ia2] : List SInstr).length < 1 + 1)
    ∧ (1 + 1 ≤ ([ia1, ia2] : List SInstr).length →
        sizeTSub ([ia1, ia2] : List SInstr).length (1 + 1)
          < ([ia1, ia2] : List SInstr).length) :=
  c10_bb_back [ia1, ia2] 1 (by decide) (by decide)

/-- Claim C7 evaluated at the failing input: `Instr::operand` performs
unchecked indexing (SSA.hpp:88), so for an instruction with two operand
slots the access at index 2 is outside the operand list's domain and yields
no value — the source reports no failure there. -/
theorem c7_operand_out_of_range :
    ([10, 11] : List Nat).length ≤ 2
    ∧ operandAccess [10, 11] 2 = none
    ∧ operandAccess [10, 11] 1 = some 11 := by
  decide

/-! ## Dominators -/

theorem lookupDom_map (blocks : List Nat) (f : Nat → List Nat) (e : Nat)
    (he : e ∈ blocks) :
    lookupDom (blocks.map (fun b => (b, f b))) e = f e := by
  induction blocks with
  | nil => cases he
  | cons x xs ih =>
    rw [List.map_cons]
    by_cases hx : e = x
    · subst hx
      simp [lookupDom, List.lookup]
    · rcases List.mem_cons.mp he with hh | hh
      · exact absurd hh hx
      · show lookupDom ((x, f x) :: xs.map (fun b => (b, f b))) e = f e
        have hbe : (e == x) = false := beq_eq_false_iff_ne.mpr hx
        simp only [lookupDom, List.lookup, hbe]
        exact ih hh

theorem domIter_entry (g : DomGraph) (he : g.entry ∈ g.blocks) :
    ∀ n, lookupDom (domIter g n) g.entry = [g.entry] := by
  intro n
  induction n with
  | zero =>
    show lookupDom (domInit g) g.entry = _
    rw [domInit, lookupDom_map _ _ _ he]
    simp
  | succ m ih =>
    show lookupDom (domStep g (domIter g m)) g.entry = _
    rw [domStep, lookupDom_map _ _ _ he]
    simp [ih]

theorem dominators_entry (g : DomGraph) (he : g.entry ∈ g.blocks) :
    dominators g g.entry = [g.entry] :=
  domIter_entry g he _

theorem dpath_src_mem {g : DomGraph} {s t : Nat} {l : List Nat}
    (h : DPath g s t l) : s ∈ l := by
  cases h with
  | single b => exact List.mem_singleton.mpr rfl
  | step a b c l hs hp => exact List.mem_cons_self _ _

theorem dpath_tgt_mem {g : DomGraph} {s t : Nat} {l : List Nat}
    (h : DPath g s t l) : t ∈ l := by
  induction h with
  | single b => exact List.mem_singleton.mpr rfl
  | step a b c l hs hp ih => exact List.mem_cons_of_mem _ ih

/-- Claim C4: the dominator computation is the iterative monotone fixpoint
(seed entry to the singleton entry, others to the full block set, update
each non-entry block to self plus the intersection of its predecessors'
sets): the entry block's result is the singleton entry; on the diamond CFG
(Entry 0 to Left 1 and Right 2, both to Join 3) every block's dominator set
is itself plus Entry, Join's is exactly Entry and Join — matching the
every-path characterization: every Entry-to-Join path contains Entry and
Join, while paths avoiding Left and avoiding Right exist — and Join's
immediate dominator set is exactly Entry. -/
theorem c4_dominators :
    (∀ g : DomGraph, g.entry ∈ g.blocks → dominators g g.entry = [g.entry])
    ∧ dominators diamond 0 = [0]
    ∧ dominators diamond 1 = [1, 0]
    ∧ dominators diamond 2 = [2, 0]
    ∧ dominators diamond 3 = [3, 0]
    ∧ (∀ x, x ∈ dominators diamond 3 ↔ (x = 3 ∨ x = 0))
    ∧ (∀ l, DPath diamond 0 3 l → 0 ∈ l ∧ 3 ∈ l)
    ∧ (∃ l, DPath diamond 0 3 l ∧ 1 ∉ l)
    ∧ (∃ l, DPath diamond 0 3 l ∧ 2 ∉ l)
    ∧ immediateDominators diamond 3 = [0] := by
  refine ⟨dominators_entry, by decide, by decide, by decide, by decide,
    ?_, ?_, ?_, ?_, by decide⟩
  · intro x
    rw [show dominators diamond 3 = [3, 0] from by decide]
    simp
  · intro l hp
    exact ⟨dpath_src_mem hp, dpath_tgt_mem hp⟩
  · refine ⟨[0, 2, 3], ?_, by decide⟩
    exact DPath.step 0 2 3 [2, 3] (by decide)
      (DPath.step 2 3 3 [3] (by decide) (DPath.single 3))
  · refine ⟨[0, 1, 3], ?_, by decide⟩
    exact DPath.step 0 1 3 [1, 3] (by decide)
      (DPath.step 1 3 3 [3] (by decide) (DPath.single 3))

/-- Witness for C4: the general entry-block fact applied to the concrete
diamond CFG, with the membership hypothesis discharged there. -/
theorem c4_dominators_witness : dominators diamond 0 = [0] :=
  c4_dominators.1 diamond (by decide)

end AsmLsp
